import Mathlib

/-!
Verification development for the `mnemo` URL adapter: a shallow embedding of
`packages/core/src/adapters/url-adapter/link-scorer.ts`,
`packages/core/src/adapters/url-adapter/robots.ts`,
`packages/core/src/adapters/url-adapter/crawler.ts`, and
`combineLoadedSources` from `packages/mcp-server/src/tools/handlers.ts`.

The TypeScript code delegates URL parsing/serialization to the platform
WHATWG `URL` class.  That collaborator is modeled here by `parseUrl` / `href`
over a record of components, restricted to the simple absolute
`scheme://host/path?query#fragment` shape that the crawler manipulates
(no userinfo, port, percent-encoding, or relative-path resolution; scheme and
host are lowercased as WHATWG does, a missing path serializes as "/").
All character-level work is done on `List Char` so statements evaluate in the
kernel.
-/

set_option maxRecDepth 16384

namespace Mnemo

/-- `listStartsWith s pat` : does `s` begin with `pat`? -/
def listStartsWith : List Char → List Char → Bool
  | _, [] => true
  | [], _ :: _ => false
  | c :: cs, d :: ds => c == d && listStartsWith cs ds

/-- Split `s` at the first occurrence of `sep`, returning the parts before and
after it; `none` when `sep` does not occur. -/
def splitAtFirstSub (sep : List Char) : List Char → Option (List Char × List Char)
  | [] => if sep.isEmpty then some ([], []) else none
  | c :: cs =>
    if listStartsWith (c :: cs) sep then some ([], (c :: cs).drop sep.length)
    else (splitAtFirstSub sep cs).map (fun p => (c :: p.1, p.2))

/-- Model of JavaScript `String.prototype.split` with a one-character
separator (keeps empty pieces). -/
def splitOnChar (sep : Char) : List Char → List (List Char)
  | [] => [[]]
  | c :: cs =>
    let r := splitOnChar sep cs
    if c == sep then [] :: r
    else
      match r with
      | [] => [[c]]
      | h :: t => (c :: h) :: t

/-- Join pieces with a one-character separator (inverse of `splitOnChar`). -/
def intercalateChar (sep : Char) : List (List Char) → List Char
  | [] => []
  | [p] => p
  | p :: ps => p ++ sep :: intercalateChar sep ps

/-- Model of JavaScript `String.prototype.includes`: substring test. -/
def listContainsSub : List Char → List Char → Bool
  | [], pat => pat.isEmpty
  | c :: cs, pat => listStartsWith (c :: cs) pat || listContainsSub cs pat

/-- Model of JavaScript `toLowerCase` (ASCII letters suffice for the inputs
handled here). -/
def lowerChars (s : List Char) : List Char := s.map Char.toLower

/-- `listEndsWith s pat` : does `s` end with `pat`? -/
def listEndsWith (s pat : List Char) : Bool := listStartsWith s.reverse pat.reverse

/-- Component view of a parsed absolute URL (model of the platform `URL`). -/
structure Url where
  scheme : String
  host : String
  path : List Char
  query : List (List Char × List Char)
  fragment : List Char
deriving DecidableEq, Repr

/-- A scheme is one letter followed by letters/digits/`+`/`-`/`.`
(as in the WHATWG URL grammar). -/
def validSchemeChars : List Char → Bool
  | [] => false
  | c :: rest => c.isAlpha && rest.all (fun d => d.isAlpha || d.isDigit || d == '+' || d == '-' || d == '.')

/-- Parse an `application/x-www-form-urlencoded` query into name/value pairs:
split on `&`, drop empty pieces, split each piece at its first `=`
(a piece without `=` becomes a pair with empty value).  Model of the pair
list behind the platform `URLSearchParams`. -/
def parseQueryChars (qs : List Char) : List (List Char × List Char) :=
  ((splitOnChar '&' qs).filter (fun p => !p.isEmpty)).map (fun p =>
    match splitAtFirstSub ['='] p with
    | some (n, v) => (n, v)
    | none => (p, []))

/-- Serialize query pairs as `name=value` joined by `&`
(model of `URLSearchParams.toString`). -/
def serializeQueryChars (q : List (List Char × List Char)) : List Char :=
  intercalateChar '&' (q.map (fun p => p.1 ++ '=' :: p.2))

/-- Parse an absolute URL string into components; `none` models the platform
`URL` constructor throwing.  An empty path becomes `/`.  (WHATWG also
lowercases scheme and host; that case canonicalization is not modeled — the
URLs the crawler manipulates are already lowercase there.) -/
def parseUrl (s : String) : Option Url :=
  match splitAtFirstSub "://".data s.data with
  | none => none
  | some (schemeChars, rest) =>
    if validSchemeChars schemeChars then
      let host := rest.takeWhile (fun c => !(c == '/') && !(c == '?') && !(c == '#'))
      let rest2 := rest.drop host.length
      if host.isEmpty then none
      else
        let hasPath := rest2.head? == some '/'
        let path := if hasPath then rest2.takeWhile (fun c => !(c == '?') && !(c == '#')) else ['/']
        let rest3 := if hasPath then rest2.drop path.length else rest2
        let queryChars := match rest3 with
          | '?' :: t => t.takeWhile (fun c => !(c == '#'))
          | _ => []
        let rest4 := match rest3 with
          | '?' :: t => t.dropWhile (fun c => !(c == '#'))
          | _ => rest3
        let fragment := match rest4 with
          | '#' :: t => t
          | _ => []
        some { scheme := String.mk schemeChars,
               host := String.mk host,
               path := path,
               query := parseQueryChars queryChars,
               fragment := fragment }
    else none

/-- Serialize components back to a URL string (model of `URL.href`): the
query is printed only when nonempty, the fragment only when nonempty. -/
def href (u : Url) : String :=
  String.mk (u.scheme.data ++ "://".data ++ u.host.data ++ u.path
    ++ (if u.query.isEmpty then [] else '?' :: serializeQueryChars u.query)
    ++ (if u.fragment.isEmpty then [] else '#' :: u.fragment))

/-- Model of `URL.origin` for the http(s) URLs handled here. -/
def urlOrigin (u : Url) : List Char := u.scheme.data ++ "://".data ++ u.host.data

/-! ## `link-scorer.ts` -/

/-- The tracking parameter names deleted by `normalizeUrl`
(`link-scorer.ts`, `trackingParams`). -/
def trackingParamNames : List (List Char) :=
  (["utm_source", "utm_medium", "utm_campaign", "utm_term", "utm_content",
    "ref", "source", "campaign", "fbclid", "gclid"] : List String).map String.data

/-- The trailing-slash step of `normalizeUrl`: for a non-root path containing
no `.`, `replace(/\/$/, '')` removes one trailing slash. -/
def normTrailing (path : List Char) : List Char :=
  if !(path == ['/']) && !(path.contains '.') then
    (if listEndsWith path ['/'] then path.dropLast else path)
  else path

/-- `normalizeUrl` from `link-scorer.ts`: delete the listed tracking
parameters, clear the fragment, and apply the trailing-slash step; on a
parse failure the input is returned unchanged. -/
def normalizeUrl (url : String) : String :=
  match parseUrl url with
  | none => url
  | some u =>
    href { u with query := u.query.filter (fun p => !(trackingParamNames.contains p.1)),
                  fragment := [],
                  path := normTrailing u.path }

/-- Static-asset path fragments skipped by `shouldSkipUrl`. -/
def staticPaths : List (List Char) :=
  (["/static/", "/assets/", "/dist/", "/build/", "/_next/", "/node_modules/"] : List String).map String.data

/-- `shouldSkipUrl` from `link-scorer.ts`: skip unparseable URLs, non-http(s)
schemes, and static-asset paths.  (The tracking-parameter branch in the
source returns `false` either way, so it has no effect on the result.) -/
def shouldSkipUrl (url : String) : Bool :=
  match parseUrl url with
  | none => true
  | some u =>
    if !(u.scheme == "http") && !(u.scheme == "https") then true
    else if staticPaths.any (fun p => listContainsSub u.path p) then true
    else false

/-- Documentation-like path fragments (`docPatterns` in `scoreLink`). -/
def docPatterns : List (List Char) :=
  (["/docs", "/guide", "/reference", "/api", "/tutorial", "/learn", "/manual",
    "/handbook", "/help", "/faq", "/getting-started", "/quickstart"] : List String).map String.data

/-- Likely non-content path fragments (`skipPatterns` in `scoreLink`). -/
def scoreSkipPatterns : List (List Char) :=
  (["/login", "/signup", "/auth", "/admin", "/cart", "/checkout", "/account",
    "/settings", "/profile", "/search", "/tag/", "/category/", "/author/",
    "/page/"] : List String).map String.data

/-- Binary/media extensions penalized by `scoreLink`. -/
def skipExtensions : List (List Char) :=
  ([".zip", ".tar", ".gz", ".exe", ".dmg", ".pkg", ".deb", ".rpm", ".mp3",
    ".mp4", ".avi", ".mov", ".jpg", ".jpeg", ".png", ".gif", ".svg", ".ico"] : List String).map String.data

/-- Textual-document extensions boosted by `scoreLink`. -/
def docExtensions : List (List Char) :=
  ([".html", ".htm", ".md", ".txt"] : List String).map String.data

/-- The unclamped score computed by `scoreLink` (base 50 plus the documented
adjustments, in source order); a parse failure of either URL yields the
`catch` value 10. -/
def scoreRaw (link sourceUrl : String) : Int :=
  match parseUrl link, parseUrl sourceUrl with
  | some lu, some su =>
    let s : Int := 50
    let s := if urlOrigin lu == urlOrigin su then s + 20 else s
    -- sourceUrlObj.pathname.split('/').slice(0, -1).join('/')
    let sourcePath := intercalateChar '/' ((splitOnChar '/' su.path).dropLast)
    let s := if !sourcePath.isEmpty && listStartsWith lu.path sourcePath then s + 10 else s
    let s := if docPatterns.any (fun p => listContainsSub (lowerChars lu.path) p) then s + 15 else s
    let s := if scoreSkipPatterns.any (fun p => listContainsSub (lowerChars lu.path) p) then s - 30 else s
    let s := if lu.path == su.path && !lu.fragment.isEmpty then s - 40 else s
    let s := if 200 < link.length then s - 10 else s
    -- linkUrl.searchParams.toString().split('&').length
    let paramCount := if lu.query.isEmpty then 1 else lu.query.length
    let s := if 3 < paramCount then s - 15 else s
    let pathDepth := ((splitOnChar '/' lu.path).filter (fun p => !p.isEmpty)).length
    let s := if pathDepth ≤ 3 then s + 5 else s
    let lpath := lowerChars lu.path
    let s := if skipExtensions.any (fun e => listEndsWith lpath e) then s - 50 else s
    let s := if docExtensions.any (fun e => listEndsWith lpath e) then s + 5 else s
    s
  | _, _ => 10

/-- `scoreLink` from `link-scorer.ts`: the raw score clamped to `[0, 100]`. -/
def scoreLink (link sourceUrl : String) : Int :=
  max 0 (min 100 (scoreRaw link sourceUrl))

/-! ## `robots.ts`

`pathMatches` builds a JavaScript regex from a robots.txt pattern: it first
escapes every regex metacharacter **including `$`** (`'$'` becomes `"\$"`),
then turns `*` into `.*`.  Because the escape runs first, the subsequent
`endsWith('$')` test fires on the escaped `"\$"` and its slice-and-append
rebuilds the same `"\$"` — so a trailing `$` stays a *literal* dollar
character and that branch also never receives the `'^'` start anchor.  The
translated regex is therefore: for a pattern not ending in `$`, a
start-anchored glob (literal chars, `*` as wildcard) matched against a prefix
of the pathname; for a pattern ending in `$`, the same glob searched
*anywhere* in the pathname with a literal `$` required at its end.  The
regexes built this way are always syntactically valid, so the `catch`
fallback in the source is unreachable.  The functions below embed exactly
those semantics. -/

/-- One unit of the translated robots pattern: a literal character or the
`.*` wildcard produced from `*`. -/
inductive RobotsTok where
  | lit (c : Char)
  | star
deriving DecidableEq

/-- Translate a robots.txt pattern: `*` becomes the wildcard, every other
character (including `$`) is literal. -/
def patternToks (pattern : String) : List RobotsTok :=
  pattern.data.map (fun c => if c == '*' then RobotsTok.star else RobotsTok.lit c)

/-- All suffixes of a list, longest first (the candidate remainders a `.*`
can leave). -/
def listSuffixes : List Char → List (List Char)
  | [] => [[]]
  | c :: cs => (c :: cs) :: listSuffixes cs

/-- Does the token list match some prefix of `s`? (semantics of a
start-anchored regex of literals and `.*` under `RegExp.test`; `.*` consumes
an arbitrary prefix, i.e. the rest matches some suffix). -/
def tokMatchesPre : List RobotsTok → List Char → Bool
  | [], _ => true
  | RobotsTok.lit _ :: _, [] => false
  | RobotsTok.lit c :: ts, d :: ds => c == d && tokMatchesPre ts ds
  | RobotsTok.star :: ts, ds => (listSuffixes ds).any (fun ds2 => tokMatchesPre ts ds2)

/-- Does the token list match starting at any position of `s`? (semantics of
an unanchored regex under `RegExp.test`). -/
def tokMatchesSub (ts : List RobotsTok) : List Char → Bool
  | [] => tokMatchesPre ts []
  | d :: ds => tokMatchesPre ts (d :: ds) || tokMatchesSub ts ds

/-- `RobotsChecker.pathMatches` from `robots.ts` (see the section comment for
why a trailing `$` is a literal character and drops the start anchor). -/
def pathMatches (pathname pattern : String) : Bool :=
  if pattern.isEmpty then false
  else if pattern.data.getLast? == some '$' then
    tokMatchesSub (patternToks pattern) pathname.data
  else
    tokMatchesPre (patternToks pattern) pathname.data

/-- One parsed robots.txt rule group (`RobotsRule` in `robots.ts`). -/
structure RobotsRule where
  userAgent : String
  allow : List String
  disallow : List String
deriving Repr

/-- `RobotsChecker.isAllowed` from `robots.ts`, with the checker's state
passed explicitly: `loaded` is the `loaded` flag set by `load()`, `rules` the
parsed ruleset (empty after a failed load — fail-open).  The source computes
`new URL(url).pathname`, which would throw on an unparseable URL; the crawl
only calls this with URLs it could parse, so that case is modeled as
allowed. -/
def isAllowed (loaded : Bool) (rules : List RobotsRule) (crawlerAgent : String) (url : String) : Bool :=
  if !loaded then true
  else
    match parseUrl url with
    | none => true
    | some u =>
      let pathname := String.mk u.path
      let applicable := rules.filter (fun r =>
        r.userAgent == "*" ||
          listContainsSub (lowerChars crawlerAgent.data) (lowerChars r.userAgent.data))
      !(applicable.any (fun r => r.disallow.any (fun d =>
        pathMatches pathname d &&
          !(r.allow.any (fun a => pathMatches pathname a && d.length < a.length)))))

/-! ## `crawler.ts`

The crawl loop is embedded as a fuel-indexed recursion `crawlLoop`; every
iteration of the `while` loop consumes one unit of fuel, so any concrete
crawl is computed by supplying enough fuel.  Network I/O is a deterministic
environment `CrawlEnv`: `fetchPage` models `fetch` + extraction (an `Except`
error is a thrown fetch/extraction failure), and `robotsAllowed` models the
answer of the per-origin `RobotsChecker` consulted by `checkRobots`.  The
`delayMs` rate limit and timestamps are real-time effects with no bearing on
the result and are not modeled.  Note where the subrequest counter moves:
exactly as in the source, it is incremented only *after* `loadPage`
resolves successfully; robots.txt fetches and failed page fetches never
touch it. -/

/-- Result of a successful fetch + extraction for one URL (what `loadPage`
derives its `LoadedPage` from). -/
structure Fetched where
  text : String
  title : Option String := none
  links : List String := []
deriving Repr

/-- Deterministic model of the network: page fetch outcome per URL and the
per-origin robots verdict per URL. -/
structure CrawlEnv where
  fetchPage : String → Except String Fetched
  robotsAllowed : String → Bool

/-- `CrawlConfig` from `crawler.ts`. -/
structure CrawlConfig where
  seedUrls : List String
  targetTokens : Nat
  minTokensPerPage : Nat
  maxPages : Nat
  sameDomainOnly : Bool
  delayMs : Nat
  respectRobotsTxt : Bool
  maxSubrequests : Option Nat
deriving Repr

/-- `LoadedPage` from `crawler.ts` (`FileInfo` plus links and the extracted
title used for the heading). -/
structure LoadedPage where
  path : String
  content : String
  size : Nat
  tokenEstimate : Nat
  title : Option String
  links : List String
deriving Repr, DecidableEq

/-- `PrioritizedUrl` from `crawler.ts`. -/
structure PrioritizedUrl where
  url : String
  score : Int
  depth : Nat
  referrer : String
deriving Repr, DecidableEq

/-- `CrawlError` from `crawler.ts` (the wall-clock `timestamp` field is not
modeled). -/
structure CrawlError where
  url : String
  error : String
deriving Repr, DecidableEq

/-- The crawler's mutable state. -/
structure CrawlState where
  visited : List String
  queue : List PrioritizedUrl
  loadedContent : List LoadedPage
  errors : List CrawlError
  currentTokens : Nat
  subrequestCount : Nat

/-- `estimateTokens` from `crawler.ts`: `Math.ceil(text.length / 4)`. -/
def estimateTokens (text : String) : Nat := (text.length + 3) / 4

/-- `loadPage` from `crawler.ts`: `fetch` the URL (the platform rejects an
unparseable URL), extract, and build the `LoadedPage`; `Except.error` models
the function throwing. -/
def loadPage (env : CrawlEnv) (url : String) : Except String LoadedPage :=
  if (parseUrl url).isNone then Except.error "invalid URL"
  else
    match env.fetchPage url with
    | Except.error e => Except.error e
    | Except.ok f =>
      Except.ok { path := url, content := f.text, size := f.text.length,
                  tokenEstimate := estimateTokens f.text, title := f.title,
                  links := f.links }

/-- Insert into a descending-by-score list, after all entries of equal or
higher score. -/
def insertDesc (x : PrioritizedUrl) : List PrioritizedUrl → List PrioritizedUrl
  | [] => [x]
  | y :: ys => if x.score ≤ y.score then y :: insertDesc x ys else x :: y :: ys

/-- Stable descending sort by score — the observable behavior of
`this.queue.sort((a, b) => b.score - a.score)` under the (stable)
JavaScript array sort. -/
def sortQueue (q : List PrioritizedUrl) : List PrioritizedUrl :=
  q.foldl (fun acc x => insertDesc x acc) []

/-- Model of `new URL(link, sourceUrl).href` as used by `queueLinks`:
an absolute link resolves to its own serialization, a root-relative link is
joined to the base origin; other relative forms are not modeled and behave
like the constructor throwing (the `catch` skips the link). -/
def resolveUrl (link base : String) : Option String :=
  match parseUrl link with
  | some u => some (href u)
  | none =>
    match parseUrl base with
    | none => none
    | some b =>
      if listStartsWith link.data ['/'] && !(listStartsWith link.data "//".data) then
        some (String.mk (urlOrigin b ++ link.data))
      else none

/-- The per-link body of `queueLinks` from `crawler.ts`: filter, resolve and
normalize, dedup against visited set and queue, same-domain check, score
threshold, then push. -/
def queueLink (cfg : CrawlConfig) (su : Url) (sourceUrl : String) (sourceDepth : Nat)
    (st : CrawlState) (link : String) : CrawlState :=
  if shouldSkipUrl link then st
  else
    match resolveUrl link sourceUrl with
    | none => st
    | some resolvedHref =>
      let resolved := normalizeUrl resolvedHref
      if st.visited.contains resolved then st
      else if st.queue.any (fun q => q.url == resolved) then st
      else
        match parseUrl resolved with
        | none => st
        | some ru =>
          if cfg.sameDomainOnly && !(urlOrigin ru == urlOrigin su) then st
          else
            let score := scoreLink resolved sourceUrl
            if score < 20 then st
            else { st with queue := st.queue ++
                    [{ url := resolved, score := score, depth := sourceDepth + 1,
                       referrer := sourceUrl }] }

/-- `queueLinks` from `crawler.ts`.  The source first computes
`new URL(sourceUrl).origin`; `sourceUrl` always parses when this is reached
(its page was fetched), so the `none` branch is inert. -/
def queueLinks (cfg : CrawlConfig) (st : CrawlState) (links : List String)
    (sourceUrl : String) (sourceDepth : Nat) : CrawlState :=
  match parseUrl sourceUrl with
  | none => st
  | some su => links.foldl (queueLink cfg su sourceUrl sourceDepth) st

/-- The `maxSubrequests` conjunct of the loop guard:
`maxSubs === undefined || this.subrequestCount < maxSubs`. -/
def subBudgetOk (cfg : CrawlConfig) (s : CrawlState) : Bool :=
  match cfg.maxSubrequests with
  | none => true
  | some m => decide (s.subrequestCount < m)

/-- The `while` condition of `crawl`: token total below target, queue
nonempty, accepted pages below cap, subrequest budget not exhausted. -/
def crawlGuard (cfg : CrawlConfig) (s : CrawlState) : Bool :=
  decide (s.currentTokens < cfg.targetTokens) &&
    decide (0 < s.queue.length) &&
    decide (s.loadedContent.length < cfg.maxPages) &&
    subBudgetOk cfg s

/-- The `while` loop of `crawl` from `crawler.ts`, one fuel unit per
iteration: sort the queue descending by score, shift the head, drop it if
visited, otherwise mark visited, consult robots (when enabled), fetch, and
either record an error or — after incrementing the subrequest counter —
accept or discard the page by the `minTokensPerPage` test, queueing an
accepted page's links. -/
def crawlLoop (env : CrawlEnv) (cfg : CrawlConfig) : Nat → CrawlState → CrawlState
  | 0, s => s
  | fuel + 1, s =>
    if crawlGuard cfg s then
      match sortQueue s.queue with
      | [] => s
      | next :: rest =>
        if ({ s with queue := rest } : CrawlState).visited.contains next.url then
          crawlLoop env cfg fuel { s with queue := rest }
        else
          let s2 : CrawlState := { s with queue := rest, visited := next.url :: s.visited }
          if cfg.respectRobotsTxt && !(env.robotsAllowed next.url) then
            crawlLoop env cfg fuel
              { s2 with errors := s2.errors ++ [{ url := next.url, error := "Blocked by robots.txt" }] }
          else
            match loadPage env next.url with
            | Except.error msg =>
              crawlLoop env cfg fuel
                { s2 with errors := s2.errors ++ [{ url := next.url, error := msg }] }
            | Except.ok page =>
              let s3 : CrawlState := { s2 with subrequestCount := s2.subrequestCount + 1 }
              if cfg.minTokensPerPage ≤ page.tokenEstimate then
                crawlLoop env cfg fuel
                  (queueLinks cfg
                    { s3 with loadedContent := s3.loadedContent ++ [page],
                              currentTokens := s3.currentTokens + page.tokenEstimate }
                    page.links next.url next.depth)
              else
                crawlLoop env cfg fuel s3
    else s

/-- Step 1 of `crawl`: seed the queue with each input URL, normalized, score
100, depth 0 — pushed with **no** duplicate check. -/
def seedState (cfg : CrawlConfig) : CrawlState :=
  { visited := [], loadedContent := [], errors := [], currentTokens := 0,
    subrequestCount := 0,
    queue := cfg.seedUrls.map (fun u =>
      { url := normalizeUrl u, score := 100, depth := 0, referrer := "" }) }

/-- `FileInfo` from the core types. -/
structure FileInfo where
  path : String
  content : String
  size : Nat
  tokenEstimate : Nat
  mimeType : Option String := none
deriving Repr

/-- The open-ended `metadata` record of a `LoadedSource`; required `source`
plus the crawl-specific fields `buildResult` fills in (`loadedAt` and the
`crawlConfig` echo are respectively a wall-clock timestamp and a static copy
of the configuration, not modeled). -/
structure SourceMetadata where
  source : String
  pagesLoaded : Option Nat := none
  pagesSkipped : Option Nat := none
  pagesInQueue : Option Nat := none
  errors : Option (List CrawlError) := none
  targetTokens : Option Nat := none
  actualTokens : Option Nat := none
  subrequestsUsed : Option Nat := none
  stoppedBySubrequestLimit : Option Bool := none
deriving Repr

/-- `LoadedSource` from the core types. -/
structure LoadedSource where
  content : String
  totalTokens : Nat
  fileCount : Nat
  files : List FileInfo
  metadata : SourceMetadata
deriving Repr

/-- `buildResult` from `crawler.ts`: assemble accepted pages (heading derived
from the extracted title, falling back to the URL when absent or empty — the
JavaScript `||`), strip links down to `FileInfo`, and fill the metadata,
including `stoppedBySubrequestLimit :=
maxSubrequests !== undefined && subrequestCount >= maxSubrequests`. -/
def buildResult (cfg : CrawlConfig) (s : CrawlState) : LoadedSource :=
  let content := String.intercalate "\n" (s.loadedContent.map (fun f =>
    let title := match f.title with
      | some t => if t == "" then f.path else t
      | none => f.path
    "# " ++ title ++ "\nSource: " ++ f.path ++ "\n\n" ++ f.content ++ "\n\n---\n"))
  { content := content,
    totalTokens := s.currentTokens,
    fileCount := s.loadedContent.length,
    files := s.loadedContent.map (fun p =>
      { path := p.path, content := p.content, size := p.size,
        tokenEstimate := p.tokenEstimate, mimeType := none }),
    metadata := {
      source := String.intercalate " + " cfg.seedUrls,
      pagesLoaded := some s.loadedContent.length,
      pagesSkipped := some (s.visited.length - s.loadedContent.length),
      pagesInQueue := some s.queue.length,
      errors := if 0 < s.errors.length then some s.errors else none,
      targetTokens := some cfg.targetTokens,
      actualTokens := some s.currentTokens,
      subrequestsUsed := some s.subrequestCount,
      stoppedBySubrequestLimit := some (match cfg.maxSubrequests with
        | none => false
        | some m => decide (m ≤ s.subrequestCount)) } }

/-- `crawl` from `crawler.ts`: seed, loop, assemble. -/
def crawl (env : CrawlEnv) (cfg : CrawlConfig) (fuel : Nat) : LoadedSource :=
  buildResult cfg (crawlLoop env cfg fuel (seedState cfg))

/-! ## `combineLoadedSources` from `handlers.ts` -/

/-- `combineLoadedSources` from `packages/mcp-server/src/tools/handlers.ts`:
flatten the file lists, sum token totals and file counts, and build the
combined content (the `# Generated:` line carries a wall-clock timestamp,
not modeled; an out-of-range `sourceNames[i]` is JavaScript `undefined`,
which stringifies as shown). -/
def combineLoadedSources (sources : List LoadedSource) (sourceNames : List String) : LoadedSource :=
  let allFiles := (sources.map (fun s => s.files)).flatten
  let totalTokens := sources.foldl (fun sum s => sum + s.totalTokens) 0
  let fileCount := sources.foldl (fun sum s => sum + s.fileCount) 0
  let header := ["# Combined Context",
    "# Sources: " ++ String.intercalate ", " sourceNames,
    "# Total Files: " ++ toString fileCount,
    "# Generated:", ""]
  let sections := (List.range sources.length).map (fun i =>
    ["## Source " ++ toString (i + 1) ++ ": " ++ (sourceNames.getD i "undefined"), "",
     ((sources.get? i).map (fun s => s.content)).getD "", ""])
  { content := String.intercalate "\n" (header ++ sections.flatten),
    totalTokens := totalTokens,
    fileCount := fileCount,
    files := allFiles,
    metadata := { source := String.intercalate " + " sourceNames } }

/-! ## Concrete fixtures used in the theorems -/

/-- Network: the first seed's fetch throws (HTTP 500), the second succeeds
with a 40-character page (10 tokens). -/
def envFailedFetch : CrawlEnv :=
  { fetchPage := fun u =>
      if u == "https://a.com/x" then Except.error "HTTP 500: Internal Server Error"
      else if u == "https://a.com/y" then Except.ok { text := String.mk (List.replicate 40 'a') }
      else Except.error "HTTP 404: Not Found",
    robotsAllowed := fun _ => true }

/-- Two seeds, subrequest cap 1. -/
def cfgFailedFetch : CrawlConfig :=
  { seedUrls := ["https://a.com/x", "https://a.com/y"], targetTokens := 1000,
    minTokensPerPage := 0, maxPages := 10, sameDomainOnly := true, delayMs := 0,
    respectRobotsTxt := false, maxSubrequests := some 1 }

/-- Network: every page is 240 characters (60 tokens), no links. -/
def envSixtyTokens : CrawlEnv :=
  { fetchPage := fun _ => Except.ok { text := String.mk (List.replicate 240 'a') },
    robotsAllowed := fun _ => true }

/-- Three seeds, token target 100, no page/subrequest cap in reach. -/
def cfgSixtyTokens : CrawlConfig :=
  { seedUrls := ["https://a.com/s1", "https://a.com/s2", "https://a.com/s3"],
    targetTokens := 100, minTokensPerPage := 0, maxPages := 50, sameDomainOnly := true,
    delayMs := 100, respectRobotsTxt := false, maxSubrequests := none }

/-- Network: the seed page links to three same-domain pages. -/
def envThreeLinks : CrawlEnv :=
  { fetchPage := fun u =>
      if u == "https://a.com/docs" then
        Except.ok { text := String.mk (List.replicate 200 'a'),
                    links := ["https://a.com/docs/a", "https://a.com/docs/b",
                              "https://a.com/docs/c"] }
      else Except.error "HTTP 404: Not Found",
    robotsAllowed := fun _ => true }

/-- One seed, subrequest cap 1, robots enabled (and allowing everything). -/
def cfgThreeLinks : CrawlConfig :=
  { seedUrls := ["https://a.com/docs"], targetTokens := 100000,
    minTokensPerPage := 0, maxPages := 50, sameDomainOnly := true, delayMs := 0,
    respectRobotsTxt := true, maxSubrequests := some 1 }

/-- Network: the only page is 4 characters — 1 token. -/
def envTinyPage : CrawlEnv :=
  { fetchPage := fun u =>
      if u == "https://a.com/t" then Except.ok { text := "abcd" }
      else Except.error "HTTP 404: Not Found",
    robotsAllowed := fun _ => true }

/-- One seed, `minTokensPerPage` 5 — the 1-token page is discarded. -/
def cfgTinyPage : CrawlConfig :=
  { seedUrls := ["https://a.com/t"], targetTokens := 1000,
    minTokensPerPage := 5, maxPages := 10, sameDomainOnly := true, delayMs := 0,
    respectRobotsTxt := false, maxSubrequests := none }

/-- The `LoadedPage` that `loadPage envTinyPage` produces for the seed. -/
def pageTiny : LoadedPage :=
  { path := "https://a.com/t", content := "abcd", size := 4, tokenEstimate := 1,
    title := none, links := [] }

/-- The same seed URL supplied twice. -/
def cfgDupSeeds : CrawlConfig :=
  { seedUrls := ["https://a.com/x", "https://a.com/x"], targetTokens := 100,
    minTokensPerPage := 0, maxPages := 10, sameDomainOnly := true, delayMs := 0,
    respectRobotsTxt := false, maxSubrequests := none }

/-- A crawl state with nothing queued (the loop guard fails on it). -/
def emptyCrawlState : CrawlState :=
  { visited := [], queue := [], loadedContent := [], errors := [],
    currentTokens := 0, subrequestCount := 0 }

/-- A loaded source worth 100 tokens / 1 file. -/
def sampleSourceA : LoadedSource :=
  { content := "A", totalTokens := 100, fileCount := 1, files := [],
    metadata := { source := "a" } }

/-- A loaded source worth 250 tokens / 2 files. -/
def sampleSourceB : LoadedSource :=
  { content := "B", totalTokens := 250, fileCount := 2, files := [],
    metadata := { source := "b" } }

/-- Well-formedness of URL components, as guaranteed for every `parseUrl`
output: a valid scheme, a nonempty host free of delimiters, a path starting
with `/` and free of `?`/`#`, and query pairs free of the separators that
would be reinterpreted on reparsing. -/
structure UrlWF (u : Url) : Prop where
  scheme_ok : validSchemeChars u.scheme.data = true
  host_ne : u.host.data ≠ []
  host_chars : ∀ c ∈ u.host.data, c ≠ '/' ∧ c ≠ '?' ∧ c ≠ '#'
  path_head : u.path.head? = some '/'
  path_chars : ∀ c ∈ u.path, c ≠ '?' ∧ c ≠ '#'
  query_wf : ∀ p ∈ u.query,
    (∀ c ∈ p.1, c ≠ '&' ∧ c ≠ '#' ∧ c ≠ '=') ∧ (∀ c ∈ p.2, c ≠ '&' ∧ c ≠ '#')

/-- The parse of `https://x.com/p?utm_source=a&id=1` (used to witness the
normalization theorem). -/
def uExample : Url :=
  { scheme := "https", host := "x.com", path := "/p".data,
    query := [("utm_source".data, "a".data), ("id".data, "1".data)],
    fragment := [] }

/-- The deduplication invariant maintained by the crawl loop: accepted pages
and error entries carry pairwise-distinct URLs, all of them in the visited
set. -/
def CrawlInv (s : CrawlState) : Prop :=
  (s.loadedContent.map (fun p => p.path)).Nodup ∧
  (s.errors.map (fun e => e.url)).Nodup ∧
  (∀ p ∈ s.loadedContent, p.path ∈ s.visited) ∧
  (∀ e ∈ s.errors, e.url ∈ s.visited)

/-! ## Helper lemmas -/

/-- Folding `+ f s` over a list starting from `n` is `n` plus the sum of the
mapped list. -/
theorem foldl_add_map (f : LoadedSource → Nat) :
    ∀ (l : List LoadedSource) (n : Nat),
      l.foldl (fun sum s => sum + f s) n = n + (l.map f).sum := by
  intro l
  induction l with
  | nil => intro n; simp
  | cons h t ih => intro n; simp [List.foldl_cons, ih, List.sum_cons]; omega

/-- `queueLink` touches only the queue. -/
theorem queueLink_fields (cfg : CrawlConfig) (su : Url) (srcUrl : String) (d : Nat)
    (st : CrawlState) (link : String) :
    (queueLink cfg su srcUrl d st link).visited = st.visited ∧
    (queueLink cfg su srcUrl d st link).loadedContent = st.loadedContent ∧
    (queueLink cfg su srcUrl d st link).errors = st.errors := by
  refine ⟨?_, ?_, ?_⟩
  all_goals simp only [queueLink]
  all_goals repeat' split
  all_goals rfl

/-- `queueLinks` touches only the queue. -/
theorem queueLinks_fields (cfg : CrawlConfig) (st : CrawlState) (links : List String)
    (srcUrl : String) (d : Nat) :
    (queueLinks cfg st links srcUrl d).visited = st.visited ∧
    (queueLinks cfg st links srcUrl d).loadedContent = st.loadedContent ∧
    (queueLinks cfg st links srcUrl d).errors = st.errors := by
  unfold queueLinks
  cases parseUrl srcUrl with
  | none => exact ⟨rfl, rfl, rfl⟩
  | some su =>
    induction links generalizing st with
    | nil => exact ⟨rfl, rfl, rfl⟩
    | cons l ls ih =>
      have h1 := queueLink_fields cfg su srcUrl d st l
      have h2 := ih (queueLink cfg su srcUrl d st l)
      simp only [List.foldl_cons]
      exact ⟨h2.1.trans h1.1, h2.2.1.trans h1.2.1, h2.2.2.trans h1.2.2⟩

/-- A successfully loaded page records the URL it was fetched from. -/
theorem loadPage_path (env : CrawlEnv) (u : String) (p : LoadedPage)
    (h : loadPage env u = Except.ok p) : p.path = u := by
  unfold loadPage at h
  split at h
  · exact absurd h (by simp)
  · cases hf : env.fetchPage u with
    | error e => rw [hf] at h; exact absurd h (by simp)
    | ok f => rw [hf] at h; cases h; rfl

/-- A `false` result of the visited check means non-membership. -/
theorem not_mem_of_contains_false {l : List String} {a : String}
    (h : l.contains a = false) : a ∉ l := by
  intro hmem
  have h2 : l.elem a = true := List.elem_iff.mpr hmem
  rw [show l.contains a = l.elem a from rfl, h2] at h
  cases h

/-- Recording an error for a freshly visited URL preserves the invariant. -/
theorem crawlInv_push_error (s : CrawlState) (q' : List PrioritizedUrl) (u msg : String)
    (h : CrawlInv s) (hu : u ∉ s.visited) :
    CrawlInv { s with
                queue := q',
                visited := u :: s.visited,
                errors := s.errors ++ [{ url := u, error := msg }] } := by
  obtain ⟨h1, h2, h3, h4⟩ := h
  refine ⟨h1, ?_, ?_, ?_⟩
  · have hnot : u ∉ s.errors.map (fun e => e.url) := by
      intro hmem
      obtain ⟨e, he, heq⟩ := List.mem_map.mp hmem
      exact hu (heq ▸ h4 e he)
    simp only [List.map_append, List.map_cons, List.map_nil]
    exact List.nodup_append.mpr ⟨h2, List.nodup_singleton _, by
      intro x hx hx1
      simp only [List.mem_singleton] at hx1
      subst hx1
      exact hnot hx⟩
  · intro p hp
    exact List.mem_cons_of_mem _ (h3 p hp)
  · intro e he
    rcases List.mem_append.mp he with h' | h'
    · exact List.mem_cons_of_mem _ (h4 e h')
    · have : e = { url := u, error := msg } := by simpa using h'
      subst this
      exact List.mem_cons_self _ _

/-- Accepting a page for a freshly visited URL preserves the invariant. -/
theorem crawlInv_accept (s : CrawlState) (q' : List PrioritizedUrl) (u : String)
    (page : LoadedPage) (tok sub : Nat) (h : CrawlInv s) (hpath : page.path = u)
    (hu : u ∉ s.visited) :
    CrawlInv { s with
                queue := q',
                visited := u :: s.visited,
                loadedContent := s.loadedContent ++ [page],
                currentTokens := tok,
                subrequestCount := sub } := by
  obtain ⟨h1, h2, h3, h4⟩ := h
  refine ⟨?_, h2, ?_, ?_⟩
  · have hnot : u ∉ s.loadedContent.map (fun p => p.path) := by
      intro hmem
      obtain ⟨p, hp, heq⟩ := List.mem_map.mp hmem
      exact hu (heq ▸ h3 p hp)
    simp only [List.map_append, List.map_cons, List.map_nil, hpath]
    exact List.nodup_append.mpr ⟨h1, List.nodup_singleton _, by
      intro x hx hx1
      simp only [List.mem_singleton] at hx1
      subst hx1
      exact hnot hx⟩
  · intro p hp
    rcases List.mem_append.mp hp with h' | h'
    · exact List.mem_cons_of_mem _ (h3 p h')
    · have : p = page := by simpa using h'
      subst this
      rw [hpath]
      exact List.mem_cons_self _ _
  · intro e he
    exact List.mem_cons_of_mem _ (h4 e he)

/-- Marking a URL visited (and bumping the counter) preserves the invariant. -/
theorem crawlInv_visited_cons (s : CrawlState) (q' : List PrioritizedUrl) (u : String)
    (k : Nat) (h : CrawlInv s) :
    CrawlInv { s with queue := q', visited := u :: s.visited, subrequestCount := k } := by
  obtain ⟨h1, h2, h3, h4⟩ := h
  exact ⟨h1, h2, fun p hp => List.mem_cons_of_mem _ (h3 p hp),
    fun e he => List.mem_cons_of_mem _ (h4 e he)⟩

/-- Equal bookkeeping fields transport the invariant. -/
theorem crawlInv_of_fields (a b : CrawlState) (hv : a.visited = b.visited)
    (hl : a.loadedContent = b.loadedContent) (he : a.errors = b.errors)
    (h : CrawlInv b) : CrawlInv a := by
  unfold CrawlInv at *
  rw [hv, hl, he]
  exact h

/-- The crawl loop preserves the deduplication invariant. -/
theorem crawlLoop_inv (env : CrawlEnv) (cfg : CrawlConfig) :
    ∀ (fuel : Nat) (s : CrawlState), CrawlInv s → CrawlInv (crawlLoop env cfg fuel s) := by
  intro fuel
  induction fuel with
  | zero => intro s h; rw [crawlLoop]; exact h
  | succ n ih =>
    intro s h
    rw [crawlLoop]
    by_cases hgd : crawlGuard cfg s = true
    · rw [if_pos hgd]
      cases hq : sortQueue s.queue with
      | nil => exact h
      | cons nx rest =>
        dsimp only
        by_cases hvis : s.visited.contains nx.url = true
        · rw [if_pos hvis]
          exact ih _ h
        · rw [if_neg hvis]
          have hnm : nx.url ∉ s.visited :=
            not_mem_of_contains_false (by simpa using hvis)
          by_cases hrob : (cfg.respectRobotsTxt && !(env.robotsAllowed nx.url)) = true
          · rw [if_pos hrob]
            exact ih _ (crawlInv_push_error s rest nx.url "Blocked by robots.txt" h hnm)
          · rw [if_neg hrob]
            cases hl : loadPage env nx.url with
            | error msg =>
              exact ih _ (crawlInv_push_error s rest nx.url msg h hnm)
            | ok page =>
              have hpath := loadPage_path env nx.url page hl
              dsimp only
              by_cases hmin : cfg.minTokensPerPage ≤ page.tokenEstimate
              · rw [if_pos hmin]
                apply ih
                have hinner : CrawlInv
                    { s with
                        queue := rest,
                        visited := nx.url :: s.visited,
                        loadedContent := s.loadedContent ++ [page],
                        currentTokens := s.currentTokens + page.tokenEstimate,
                        subrequestCount := s.subrequestCount + 1 } :=
                  crawlInv_accept s rest nx.url page _ _ h hpath hnm
                have hf := queueLinks_fields cfg
                  { s with
                      queue := rest,
                      visited := nx.url :: s.visited,
                      loadedContent := s.loadedContent ++ [page],
                      currentTokens := s.currentTokens + page.tokenEstimate,
                      subrequestCount := s.subrequestCount + 1 }
                  page.links nx.url nx.depth
                exact crawlInv_of_fields _ _ hf.1 hf.2.1 hf.2.2 hinner
              · rw [if_neg hmin]
                exact ih _ (crawlInv_visited_cons s rest nx.url _ h)
    · rw [if_neg hgd]
      exact h

/-! ### Round-trip infrastructure for `parseUrl` / `href` -/

/-- A list starts with itself, whatever follows. -/
theorem listStartsWith_append_self (p b : List Char) : listStartsWith (p ++ b) p = true := by
  induction p with
  | nil => simp [listStartsWith]
  | cons c cs ih => simp [listStartsWith, ih]

/-- Splitting at the first occurrence of a separator finds the explicit
occurrence when the prefix cannot start one (its characters avoid the
separator's head). -/
theorem splitAtFirstSub_append (h : Char) (t a b : List Char) (ha : ∀ c ∈ a, c ≠ h) :
    splitAtFirstSub (h :: t) (a ++ h :: (t ++ b)) = some (a, b) := by
  induction a with
  | nil =>
    have h1 : listStartsWith (h :: (t ++ b)) (h :: t) = true := by
      simpa using listStartsWith_append_self (h :: t) b
    have h2 : (h :: (t ++ b)).drop (h :: t).length = b := by
      simp [List.drop_left (h :: t) b]
    simp [splitAtFirstSub, h1, h2]
  | cons c a' ih =>
    have hc : c ≠ h := ha c (List.mem_cons_self c a')
    have hIH := ih (fun x hx => ha x (List.mem_cons_of_mem _ hx))
    have hns : listStartsWith (c :: (a' ++ h :: (t ++ b))) (h :: t) = false := by
      simp [listStartsWith, beq_eq_false_iff_ne.mpr hc]
    simp [splitAtFirstSub, hns, hIH]

/-- Everything `takeWhile` keeps satisfies the predicate. -/
theorem mem_takeWhile_sat {p : Char → Bool} :
    ∀ {l : List Char} {a : Char}, a ∈ l.takeWhile p → p a = true := by
  intro l
  induction l with
  | nil => intro a ha; simp [List.takeWhile] at ha
  | cons c cs ih =>
    intro a ha
    by_cases hc : p c = true
    · rw [List.takeWhile_cons_of_pos hc] at ha
      rcases List.mem_cons.mp ha with rfl | h
      · exact hc
      · exact ih h
    · rw [List.takeWhile_cons_of_neg (by simpa using hc)] at ha
      simp at ha

/-- `splitOnChar` never yields the empty list of pieces. -/
theorem splitOnChar_ne_nil (sep : Char) (s : List Char) : splitOnChar sep s ≠ [] := by
  cases s with
  | nil => simp [splitOnChar]
  | cons c cs =>
    simp only [splitOnChar]
    split
    · simp
    · split <;> simp

/-- A separator-free string is a single piece. -/
theorem splitOnChar_no_sep (sep : Char) :
    ∀ (s : List Char), sep ∉ s → splitOnChar sep s = [s] := by
  intro s
  induction s with
  | nil => intro _; rfl
  | cons c cs ih =>
    intro h
    have hc : (c == sep) = false := beq_eq_false_iff_ne.mpr (by
      intro e
      exact h (by rw [← e]; exact List.mem_cons_self c cs))
    have hrest : sep ∉ cs := fun hm => h (List.mem_cons_of_mem _ hm)
    simp [splitOnChar, hc, ih hrest]

/-- Splitting peels off an explicit leading separator-free piece. -/
theorem splitOnChar_append (sep : Char) :
    ∀ (p r : List Char), sep ∉ p →
      splitOnChar sep (p ++ sep :: r) = p :: splitOnChar sep r := by
  intro p
  induction p with
  | nil => intro r _; simp [splitOnChar]
  | cons c cs ih =>
    intro r h
    have hc : (c == sep) = false := beq_eq_false_iff_ne.mpr (by
      intro e
      exact h (by rw [← e]; exact List.mem_cons_self c cs))
    have hrest := ih r (fun hm => h (List.mem_cons_of_mem _ hm))
    simp [splitOnChar, hc, hrest]

/-- `splitOnChar` undoes `intercalateChar` on separator-free pieces. -/
theorem intercalateChar_roundtrip (sep : Char) :
    ∀ (ps : List (List Char)), ps ≠ [] → (∀ p ∈ ps, sep ∉ p) →
      splitOnChar sep (intercalateChar sep ps) = ps := by
  intro ps
  induction ps with
  | nil => intro h _; exact absurd rfl h
  | cons p ps ih =>
    intro _ hall
    cases ps with
    | nil => exact splitOnChar_no_sep sep p (hall p (List.mem_cons_self _ _))
    | cons p2 ps2 =>
      rw [show intercalateChar sep (p :: p2 :: ps2) =
            p ++ sep :: intercalateChar sep (p2 :: ps2) from rfl,
          splitOnChar_append sep p _ (hall p (List.mem_cons_self _ _)),
          ih (by simp) (fun x hx => hall x (List.mem_cons_of_mem _ hx))]

/-- A character of an intercalation is the separator or from some piece. -/
theorem mem_intercalateChar (sep : Char) :
    ∀ (ps : List (List Char)) (c : Char), c ∈ intercalateChar sep ps →
      c = sep ∨ ∃ p ∈ ps, c ∈ p := by
  intro ps
  induction ps with
  | nil => intro c hc; simp [intercalateChar] at hc
  | cons p ps ih =>
    intro c hc
    cases ps with
    | nil =>
      exact Or.inr ⟨p, List.mem_cons_self _ _, by simpa [intercalateChar] using hc⟩
    | cons p2 ps2 =>
      rw [show intercalateChar sep (p :: p2 :: ps2) =
            p ++ sep :: intercalateChar sep (p2 :: ps2) from rfl] at hc
      rcases List.mem_append.mp hc with h | h
      · exact Or.inr ⟨p, List.mem_cons_self _ _, h⟩
      · rcases List.mem_cons.mp h with rfl | h2
        · exact Or.inl rfl
        · rcases ih c h2 with h3 | ⟨q, hq, hcq⟩
          · exact Or.inl h3
          · exact Or.inr ⟨q, List.mem_cons_of_mem _ hq, hcq⟩

/-- The query serialization of `#`-free pairs contains no `#`. -/
theorem serializeQueryChars_no_hash (q : List (List Char × List Char))
    (hq : ∀ p ∈ q, (∀ c ∈ p.1, c ≠ '#') ∧ (∀ c ∈ p.2, c ≠ '#')) :
    '#' ∉ serializeQueryChars q := by
  intro hm
  rcases mem_intercalateChar '&' _ '#' hm with h | ⟨piece, hp, hcp⟩
  · exact absurd h (by decide)
  · obtain ⟨pr, hpr, rfl⟩ := List.mem_map.mp hp
    rcases List.mem_append.mp hcp with h1 | h2
    · exact (hq pr hpr).1 '#' h1 rfl
    · rcases List.mem_cons.mp h2 with h3 | h4
      · exact absurd h3 (by decide)
      · exact (hq pr hpr).2 '#' h4 rfl

/-- A `none` split means the (single-character) separator never occurs. -/
theorem splitAtFirstSub_single_none (ch : Char) :
    ∀ (s : List Char), splitAtFirstSub [ch] s = none → ch ∉ s := by
  intro s
  induction s with
  | nil => intro _; simp
  | cons c cs ih =>
    intro h
    simp only [splitAtFirstSub] at h
    by_cases hc : listStartsWith (c :: cs) [ch] = true
    · rw [if_pos hc] at h; cases h
    · rw [if_neg hc] at h
      have hrec : splitAtFirstSub [ch] cs = none := by
        cases hr : splitAtFirstSub [ch] cs with
        | none => rfl
        | some p => rw [hr] at h; cases h
      have hcs := ih hrec
      have hcc : (c == ch) = false := by
        cases hb : c == ch with
        | false => rfl
        | true => exact absurd (by simp [listStartsWith, hb]) hc
      intro hm
      rcases List.mem_cons.mp hm with he | hmm2
      · exact absurd (beq_eq_false_iff_ne.mp hcc) (by simp [he])
      · exact hcs hmm2

/-- A `some` split decomposes the string at the first separator
occurrence. -/
theorem splitAtFirstSub_single_some (ch : Char) :
    ∀ (s n v : List Char), splitAtFirstSub [ch] s = some (n, v) →
      s = n ++ ch :: v ∧ ch ∉ n := by
  intro s
  induction s with
  | nil => intro n v h; simp [splitAtFirstSub] at h
  | cons c cs ih =>
    intro n v h
    simp only [splitAtFirstSub] at h
    by_cases hc : listStartsWith (c :: cs) [ch] = true
    · rw [if_pos hc] at h
      have hce : c = ch := by
        have : (c == ch) = true := by simpa [listStartsWith] using hc
        exact beq_iff_eq.mp this
      have hn : n = [] ∧ v = cs := by
        simpa using h.symm
      obtain ⟨rfl, rfl⟩ := hn
      subst hce
      exact ⟨rfl, by simp⟩
    · rw [if_neg hc] at h
      cases hr : splitAtFirstSub [ch] cs with
      | none => rw [hr] at h; cases h
      | some p =>
        obtain ⟨n', v'⟩ := p
        rw [hr] at h
        have hnv : n = c :: n' ∧ v = v' := by
          simpa using h.symm
        obtain ⟨rfl, rfl⟩ := hnv
        obtain ⟨hs, hn'⟩ := ih n' _ hr
        have hcc : c ≠ ch := by
          intro he
          exact hc (by simp [listStartsWith, he])
        constructor
        · rw [List.cons_append, ← hs]
        · intro hm
          rcases List.mem_cons.mp hm with he | hmm2
          · exact hcc he.symm
          · exact hn' hmm2

/-- `parseQueryChars` undoes `serializeQueryChars` on well-formed pairs. -/
theorem parseQueryChars_serialize (q : List (List Char × List Char))
    (hq : ∀ p ∈ q, '=' ∉ p.1 ∧ '&' ∉ p.1 ∧ '&' ∉ p.2) :
    parseQueryChars (serializeQueryChars q) = q := by
  cases q with
  | nil => rfl
  | cons p0 qt =>
    unfold parseQueryChars serializeQueryChars
    rw [intercalateChar_roundtrip '&' _ (by simp) ?pieces]
    case pieces =>
      intro piece hp
      obtain ⟨pr, hpr, rfl⟩ := List.mem_map.mp hp
      intro hm
      rcases List.mem_append.mp hm with h | h
      · exact (hq pr hpr).2.1 h
      · rcases List.mem_cons.mp h with h3 | h4
        · exact absurd h3 (by decide)
        · exact (hq pr hpr).2.2 h4
    rw [List.filter_eq_self.mpr ?nonempty]
    case nonempty =>
      intro piece hp
      obtain ⟨pr, _, rfl⟩ := List.mem_map.mp hp
      simp
    rw [List.map_map]
    have hpt : ∀ pr ∈ p0 :: qt,
        ((fun p => match splitAtFirstSub ['='] p with
          | some (n, v) => (n, v)
          | none => (p, ([] : List Char))) ∘ fun p => p.1 ++ '=' :: p.2) pr = pr := by
      intro pr hpr
      have hsp := splitAtFirstSub_append '=' [] pr.1 pr.2
        (fun c hc e => (hq pr hpr).1 (e ▸ hc))
      simp only [List.nil_append] at hsp
      simp [Function.comp, hsp]
    rw [List.map_congr_left hpt]
    simp

/-- Pieces produced by `splitOnChar` never contain the separator. -/
theorem splitOnChar_pieces_no_sep (sep : Char) :
    ∀ (s : List Char), ∀ p ∈ splitOnChar sep s, sep ∉ p := by
  intro s
  induction s with
  | nil =>
    intro p hp
    have : p = [] := by simpa [splitOnChar] using hp
    simp [this]
  | cons c cs ih =>
    simp only [splitOnChar]
    by_cases hc : (c == sep) = true
    · rw [if_pos hc]
      intro p hp
      rcases List.mem_cons.mp hp with rfl | hpt
      · simp
      · exact ih p hpt
    · rw [if_neg hc]
      cases hr : splitOnChar sep cs with
      | nil => exact absurd hr (splitOnChar_ne_nil sep cs)
      | cons ph pt =>
        intro p hp
        rcases List.mem_cons.mp hp with rfl | hpt
        · intro hm
          rcases List.mem_cons.mp hm with he | hm2
          · exact beq_eq_false_iff_ne.mp (by simpa using hc) he.symm
          · exact ih ph (hr ▸ List.mem_cons_self _ _) hm2
        · exact ih p (hr ▸ List.mem_cons_of_mem _ hpt)

/-- Characters of `splitOnChar` pieces come from the input. -/
theorem splitOnChar_pieces_subset (sep : Char) :
    ∀ (s : List Char), ∀ p ∈ splitOnChar sep s, ∀ c ∈ p, c ∈ s := by
  intro s
  induction s with
  | nil =>
    intro p hp
    have : p = [] := by simpa [splitOnChar] using hp
    simp [this]
  | cons c cs ih =>
    simp only [splitOnChar]
    by_cases hc : (c == sep) = true
    · rw [if_pos hc]
      intro p hp x hx
      rcases List.mem_cons.mp hp with rfl | hpt
      · simp at hx
      · exact List.mem_cons_of_mem _ (ih p hpt x hx)
    · rw [if_neg hc]
      cases hr : splitOnChar sep cs with
      | nil => exact absurd hr (splitOnChar_ne_nil sep cs)
      | cons ph pt =>
        intro p hp x hx
        rcases List.mem_cons.mp hp with rfl | hpt
        · rcases List.mem_cons.mp hx with rfl | hx2
          · exact List.mem_cons_self _ _
          · exact List.mem_cons_of_mem _ (ih ph (hr ▸ List.mem_cons_self _ _) x hx2)
        · exact List.mem_cons_of_mem _ (ih p (hr ▸ List.mem_cons_of_mem _ hpt) x hx)

/-- Pairs parsed from a `#`-free query string are well-formed. -/
theorem parseQueryChars_wf (qs : List Char) (hqs : '#' ∉ qs) :
    ∀ p ∈ parseQueryChars qs,
      (∀ c ∈ p.1, c ≠ '&' ∧ c ≠ '#' ∧ c ≠ '=') ∧ (∀ c ∈ p.2, c ≠ '&' ∧ c ≠ '#') := by
  intro p hp
  unfold parseQueryChars at hp
  obtain ⟨piece, hpiece, hpfn⟩ := List.mem_map.mp hp
  have hpc : piece ∈ splitOnChar '&' qs := (List.mem_filter.mp hpiece).1
  have hamp : '&' ∉ piece := splitOnChar_pieces_no_sep '&' qs piece hpc
  have hsub : ∀ c ∈ piece, c ∈ qs := splitOnChar_pieces_subset '&' qs piece hpc
  cases hsp : splitAtFirstSub ['='] piece with
  | none =>
    rw [hsp] at hpfn
    have heq : '=' ∉ piece := splitAtFirstSub_single_none '=' piece hsp
    subst hpfn
    constructor
    · intro c hc
      exact ⟨fun e => hamp (e ▸ hc), fun e => hqs (e ▸ hsub c hc),
        fun e => heq (e ▸ hc)⟩
    · intro c hc
      simp at hc
  | some pr =>
    obtain ⟨n, v⟩ := pr
    rw [hsp] at hpfn
    obtain ⟨hdec, hne⟩ := splitAtFirstSub_single_some '=' piece n v hsp
    subst hpfn
    have hnsub : ∀ c ∈ n, c ∈ piece := by
      intro c hc
      rw [hdec]
      exact List.mem_append.mpr (Or.inl hc)
    have hvsub : ∀ c ∈ v, c ∈ piece := by
      intro c hc
      rw [hdec]
      exact List.mem_append.mpr (Or.inr (List.mem_cons_of_mem _ hc))
    constructor
    · intro c hc
      exact ⟨fun e => hamp (e ▸ hnsub c hc), fun e => hqs (e ▸ hsub c (hnsub c hc)),
        fun e => hne (e ▸ hc)⟩
    · intro c hc
      exact ⟨fun e => hamp (e ▸ hvsub c hc), fun e => hqs (e ▸ hsub c (hvsub c hc))⟩

/-- A valid scheme contains no colon. -/
theorem validScheme_no_colon {l : List Char} (h : validSchemeChars l = true) :
    ∀ c ∈ l, c ≠ ':' := by
  cases l with
  | nil => simp [validSchemeChars] at h
  | cons c0 rest =>
    simp only [validSchemeChars, Bool.and_eq_true] at h
    obtain ⟨h0, hall⟩ := h
    intro c hc
    rcases List.mem_cons.mp hc with rfl | hrest
    · intro he
      rw [he] at h0
      exact absurd h0 (by decide)
    · have hd := (List.all_eq_true.mp hall) c hrest
      intro he
      rw [he] at hd
      exact absurd hd (by decide)

/-- Every `parseUrl` output is well-formed. -/
theorem parse_wf {s : String} {u : Url} (h : parseUrl s = some u) : UrlWF u := by
  unfold parseUrl at h
  cases hsp : splitAtFirstSub "://".data s.data with
  | none => rw [hsp] at h; cases h
  | some pr =>
    obtain ⟨schemeChars, rest⟩ := pr
    rw [hsp] at h
    dsimp only at h
    by_cases hv : validSchemeChars schemeChars = true
    · rw [if_pos hv] at h
      by_cases hhe :
          (rest.takeWhile (fun c => !(c == '/') && !(c == '?') && !(c == '#'))).isEmpty = true
      · rw [if_pos hhe] at h
        cases h
      · rw [if_neg hhe] at h
        injection h with h'
        subst h'
        have hostP : ∀ c ∈ rest.takeWhile (fun c => !(c == '/') && !(c == '?') && !(c == '#')),
            c ≠ '/' ∧ c ≠ '?' ∧ c ≠ '#' := by
          intro c hc
          have hsat := mem_takeWhile_sat hc
          simp only [Bool.and_eq_true, Bool.not_eq_true'] at hsat
          exact ⟨beq_eq_false_iff_ne.mp hsat.1.1, beq_eq_false_iff_ne.mp hsat.1.2,
            beq_eq_false_iff_ne.mp hsat.2⟩
        refine ⟨hv, ?_, hostP, ?_, ?_, ?_⟩
        · intro he
          rw [List.isEmpty_iff] at hhe
          exact hhe he
        · -- path head
          split
          · next hHP =>
            have hhead : ∀ (l : List Char), (l.head? == some '/') = true →
                (l.takeWhile (fun c => !(c == '?') && !(c == '#'))).head? = some '/' := by
              intro l hl
              cases l with
              | nil => simp at hl
              | cons c0 t =>
                have hc0 : c0 = '/' := by simpa using hl
                subst hc0
                rw [List.takeWhile_cons_of_pos (by decide)]
                rfl
            exact hhead _ hHP
          · rfl
        · -- path chars
          split
          · intro c hc
            have hsat := mem_takeWhile_sat hc
            simp only [Bool.and_eq_true, Bool.not_eq_true'] at hsat
            exact ⟨beq_eq_false_iff_ne.mp hsat.1, beq_eq_false_iff_ne.mp hsat.2⟩
          · intro c hc
            have : c = '/' := by simpa using hc
            subst this
            exact ⟨by decide, by decide⟩
        · -- query pairs
          apply parseQueryChars_wf
          split
          · intro hm
            have hsat := mem_takeWhile_sat hm
            simp at hsat
          · simp
    · rw [if_neg hv] at h
      cases h

/-- `takeWhile` keeps a list all of whose elements satisfy the predicate. -/
theorem takeWhile_all {p : Char → Bool} :
    ∀ (l : List Char), (∀ c ∈ l, p c = true) → l.takeWhile p = l := by
  intro l
  induction l with
  | nil => intro _; rfl
  | cons c cs ih =>
    intro h
    rw [List.takeWhile_cons_of_pos (h c (List.mem_cons_self _ _)),
      ih (fun x hx => h x (List.mem_cons_of_mem _ hx))]

/-- `dropWhile` drops a list all of whose elements satisfy the predicate. -/
theorem dropWhile_all {p : Char → Bool} :
    ∀ (l : List Char), (∀ c ∈ l, p c = true) → l.dropWhile p = [] := by
  intro l
  induction l with
  | nil => intro _; rfl
  | cons c cs ih =>
    intro h
    rw [List.dropWhile_cons_of_pos (h c (List.mem_cons_self _ _))]
    exact ih (fun x hx => h x (List.mem_cons_of_mem _ hx))

/-- `parseUrl` undoes `href` on well-formed fragment-free components — the
key round-trip fact behind the normalization theorem. -/
theorem parse_href (u : Url) (wf : UrlWF u) (hfr : u.fragment = []) :
    parseUrl (href u) = some u := by
  obtain ⟨sch, host, path, query, frag⟩ := u
  obtain ⟨wfs, wfh, wfhc, wfph, wfpc, wfq⟩ := wf
  dsimp only at wfs wfh wfhc wfph wfpc wfq hfr ⊢
  subst hfr
  obtain ⟨p', rfl⟩ : ∃ p', path = '/' :: p' := by
    cases path with
    | nil => simp at wfph
    | cons c cs =>
      simp only [List.head?_cons, Option.some.injEq] at wfph
      exact ⟨cs, by rw [wfph]⟩
  have hno : ∀ c ∈ sch.data, c ≠ ':' := validScheme_no_colon wfs
  have hallHost : ∀ a ∈ host.data,
      ((fun c => !(c == '/') && !(c == '?') && !(c == '#')) a) = true := by
    intro a ha
    obtain ⟨h1, h2, h3⟩ := wfhc a ha
    simp [beq_eq_false_iff_ne.mpr h1, beq_eq_false_iff_ne.mpr h2,
      beq_eq_false_iff_ne.mpr h3]
  have hallPath : ∀ a ∈ p',
      ((fun c => !(c == '?') && !(c == '#')) a) = true := by
    intro a ha
    obtain ⟨h1, h2⟩ := wfpc a (List.mem_cons_of_mem _ ha)
    simp [beq_eq_false_iff_ne.mpr h1, beq_eq_false_iff_ne.mpr h2]
  have hhe : host.data.isEmpty = false := by
    cases hh : host.data with
    | nil => exact absurd hh wfh
    | cons a b => rfl
  cases query with
  | nil =>
    unfold href parseUrl
    dsimp only
    simp only [List.isEmpty_nil, List.isEmpty_cons, eq_self_iff_true, if_true,
      Bool.false_eq_true, if_false, List.append_nil, List.append_assoc,
      List.cons_append, List.nil_append]
    have hsch := splitAtFirstSub_append ':' ('/' :: '/' :: []) sch.data
      (host.data ++ '/' :: p') hno
    simp only [List.cons_append, List.nil_append] at hsch
    rw [hsch]
    simp only [wfs, eq_self_iff_true, if_true]
    rw [List.takeWhile_append_of_pos hallHost,
      List.takeWhile_cons_of_neg (by decide), List.append_nil]
    rw [hhe]
    simp only [Bool.false_eq_true, if_false]
    rw [List.drop_left]
    simp only [List.head?_cons, beq_self_eq_true, eq_self_iff_true, if_true]
    rw [List.takeWhile_cons_of_pos (by decide), takeWhile_all _ hallPath]
    rw [List.drop_length]
    rfl
  | cons q0 qt =>
    have hwfq : ∀ p ∈ q0 :: qt, '=' ∉ p.1 ∧ '&' ∉ p.1 ∧ '&' ∉ p.2 := by
      intro p hp
      exact ⟨fun hm => ((wfq p hp).1 '=' hm).2.2 rfl,
        fun hm => ((wfq p hp).1 '&' hm).1 rfl,
        fun hm => ((wfq p hp).2 '&' hm).1 rfl⟩
    have hser_nohash : '#' ∉ serializeQueryChars (q0 :: qt) := by
      apply serializeQueryChars_no_hash
      intro p hp
      exact ⟨fun c hc => ((wfq p hp).1 c hc).2.1, fun c hc => ((wfq p hp).2 c hc).2⟩
    have hser_all : ∀ a ∈ serializeQueryChars (q0 :: qt),
        ((fun c => !(c == '#')) a) = true := by
      intro a ha
      have hne : a ≠ '#' := fun e => hser_nohash (e ▸ ha)
      simp [beq_eq_false_iff_ne.mpr hne]
    unfold href parseUrl
    dsimp only
    simp only [List.isEmpty_nil, List.isEmpty_cons, eq_self_iff_true, if_true,
      Bool.false_eq_true, if_false, List.append_nil, List.append_assoc,
      List.cons_append, List.nil_append]
    have hsch := splitAtFirstSub_append ':' ('/' :: '/' :: []) sch.data
      (host.data ++ '/' :: (p' ++ '?' :: serializeQueryChars (q0 :: qt))) hno
    simp only [List.cons_append, List.nil_append] at hsch
    rw [hsch]
    simp only [wfs, eq_self_iff_true, if_true]
    rw [List.takeWhile_append_of_pos hallHost,
      List.takeWhile_cons_of_neg (by decide), List.append_nil]
    rw [hhe]
    simp only [Bool.false_eq_true, if_false]
    rw [List.drop_left]
    simp only [List.head?_cons, beq_self_eq_true, eq_self_iff_true, if_true]
    rw [List.takeWhile_cons_of_pos (by decide),
      List.takeWhile_append_of_pos hallPath,
      List.takeWhile_cons_of_neg (by decide), List.append_nil]
    simp only [List.length_cons, List.drop_succ_cons, List.drop_left]
    rw [takeWhile_all _ hser_all, dropWhile_all _ hser_all]
    rw [parseQueryChars_serialize _ hwfq]

/-- The trailing-slash step keeps the leading slash. -/
theorem normTrailing_head {path : List Char} (h : path.head? = some '/') :
    (normTrailing path).head? = some '/' := by
  unfold normTrailing
  split
  · next hcond =>
    split
    · obtain ⟨p', rfl⟩ : ∃ p', path = '/' :: p' := by
        cases path with
        | nil => simp at h
        | cons c cs =>
          simp only [List.head?_cons, Option.some.injEq] at h
          exact ⟨cs, by rw [h]⟩
      cases p' with
      | nil => simp at hcond
      | cons a b =>
        rw [List.dropLast_cons₂]
        rfl
    · exact h
  · exact h

/-- The trailing-slash step only removes characters. -/
theorem normTrailing_subset {path : List Char} : ∀ c ∈ normTrailing path, c ∈ path := by
  unfold normTrailing
  split
  · split
    · intro c hc
      exact (List.dropLast_sublist path).subset hc
    · intro c hc
      exact hc
  · intro c hc
    exact hc

/-- Normalization preserves well-formedness (and empties the fragment). -/
theorem urlWF_normalize {u : Url} (wf : UrlWF u) :
    UrlWF { u with
              query := u.query.filter (fun p => !(trackingParamNames.contains p.1)),
              fragment := [],
              path := normTrailing u.path } := by
  obtain ⟨wfs, wfh, wfhc, wfph, wfpc, wfq⟩ := wf
  exact ⟨wfs, wfh, wfhc, normTrailing_head wfph,
    fun c hc => wfpc c (normTrailing_subset c hc),
    fun p hp => wfq p (List.mem_filter.mp hp).1⟩

/-! ## Claims -/

/-- C1 (code_bug evaluation): with `maxSubrequests = 1` and a first seed whose
fetch throws, the crawl still fetches the second seed — the failed outbound
call was not counted, so the loop guard saw a subrequest count of 0.  The
claim (and the in-code comment "counts as subrequest") requires every
outbound call to count, which would have stopped the crawl before the second
fetch. -/
theorem crawl_counts_only_successful_fetches :
    (crawl envFailedFetch cfgFailedFetch 10).fileCount = 1 ∧
    (crawl envFailedFetch cfgFailedFetch 10).metadata.subrequestsUsed = some 1 ∧
    (crawl envFailedFetch cfgFailedFetch 10).metadata.errors =
      some [{ url := "https://a.com/x", error := "HTTP 500: Internal Server Error" }] :=
  ⟨by decide, by decide, by decide⟩

/-- C3: the crawl loop continues only while token total < target, queue
nonempty, accepted pages < page cap, and (when configured) subrequests < cap
— if the guard fails the loop returns the state unchanged, and the guard is
exactly that four-way conjunction; concretely, with `targetTokens = 100` and
60-token seed pages the crawl accepts exactly 2 pages for 120 tokens. -/
theorem crawl_budget_termination :
    (∀ (env : CrawlEnv) (cfg : CrawlConfig) (fuel : Nat) (s : CrawlState),
        crawlGuard cfg s = false → crawlLoop env cfg fuel s = s) ∧
    (∀ (cfg : CrawlConfig) (s : CrawlState),
        crawlGuard cfg s = true ↔
          (s.currentTokens < cfg.targetTokens ∧ 0 < s.queue.length ∧
            s.loadedContent.length < cfg.maxPages ∧
            ∀ m, cfg.maxSubrequests = some m → s.subrequestCount < m)) ∧
    (crawl envSixtyTokens cfgSixtyTokens 10).fileCount = 2 ∧
    (crawl envSixtyTokens cfgSixtyTokens 10).totalTokens = 120 := by
  refine ⟨?_, ?_, by decide, by decide⟩
  · intro env cfg fuel s h
    cases fuel with
    | zero => rfl
    | succ n => rw [crawlLoop, h]; simp
  · intro cfg s
    unfold crawlGuard subBudgetOk
    cases h : cfg.maxSubrequests <;> simp [h, and_assoc]

/-- C3 witness: the first conjunct applied to a concrete stopped state. -/
theorem crawl_budget_termination_witness :
    crawlGuard cfgSixtyTokens emptyCrawlState = false ∧
    crawlLoop envSixtyTokens cfgSixtyTokens 7 emptyCrawlState = emptyCrawlState :=
  ⟨by decide, crawl_budget_termination.1 envSixtyTokens cfgSixtyTokens 7 emptyCrawlState (by decide)⟩

/-- C4: `stoppedBySubrequestLimit` is precisely the negation of the
subrequest-budget conjunct of the loop guard — true exactly when a cap is
configured and the subrequest count has reached it (the condition that ends
the crawl), and false whenever the crawl ended for any other reason;
concretely, with `maxSubrequests = 1` and 3 available same-domain links the
result reports the flag true with `fileCount ≤ 1`. -/
theorem stoppedBySubrequestLimit_spec :
    (∀ (cfg : CrawlConfig) (s : CrawlState),
        (buildResult cfg s).metadata.stoppedBySubrequestLimit =
          some (!(subBudgetOk cfg s))) ∧
    (crawl envThreeLinks cfgThreeLinks 10).metadata.stoppedBySubrequestLimit = some true ∧
    (crawl envThreeLinks cfgThreeLinks 10).fileCount ≤ 1 := by
  refine ⟨?_, by decide, by decide⟩
  intro cfg s
  unfold buildResult subBudgetOk
  cases cfg.maxSubrequests with
  | none => simp
  | some m =>
    simp only [Option.some.injEq, ← decide_not]
    rw [decide_eq_decide]
    omega

/-- C5: a fetched page whose token estimate is below `minTokensPerPage` is
discarded: processing its queue entry leaves the accumulated content list,
the running token total, and the queue (beyond removing the processed entry
— nothing is enqueued) unchanged, while the URL is marked visited and the
subrequest counter advances. -/
theorem below_min_tokens_frame
    (env : CrawlEnv) (cfg : CrawlConfig) (fuel : Nat) (s : CrawlState)
    (next : PrioritizedUrl) (rest : List PrioritizedUrl) (page : LoadedPage)
    (hg : crawlGuard cfg s = true)
    (hq : sortQueue s.queue = next :: rest)
    (hv : s.visited.contains next.url = false)
    (hr : (cfg.respectRobotsTxt && !(env.robotsAllowed next.url)) = false)
    (hl : loadPage env next.url = Except.ok page)
    (ht : page.tokenEstimate < cfg.minTokensPerPage) :
    crawlLoop env cfg (fuel + 1) s =
      crawlLoop env cfg fuel
        { s with
            queue := rest,
            visited := next.url :: s.visited,
            subrequestCount := s.subrequestCount + 1 } := by
  rw [crawlLoop, hg, hq]
  simp only [hv, hr, hl, if_true, Bool.false_eq_true, if_false]
  rw [if_neg (Nat.not_le.mpr ht)]

/-- C5 witness: the frame property at the concrete 1-token page under a
5-token minimum. -/
theorem below_min_tokens_frame_witness :
    crawlGuard cfgTinyPage (seedState cfgTinyPage) = true ∧
    crawlLoop envTinyPage cfgTinyPage 1 (seedState cfgTinyPage) =
      crawlLoop envTinyPage cfgTinyPage 0
        { seedState cfgTinyPage with
            queue := [],
            visited := "https://a.com/t" :: (seedState cfgTinyPage).visited,
            subrequestCount := (seedState cfgTinyPage).subrequestCount + 1 } :=
  ⟨by decide,
    below_min_tokens_frame envTinyPage cfgTinyPage 0 (seedState cfgTinyPage)
      { url := "https://a.com/t", score := 100, depth := 0, referrer := "" } [] pageTiny
      (by decide) (by decide) (by decide) (by decide) (by rfl) (by decide)⟩

/-- C6 (code_bug evaluation): a `Disallow: /private$` rule fails to block the
exact path `/private` — the translation escapes `$` before testing for it,
so the pattern demands a literal `$` character (and loses the start anchor):
`/private$x` is what it matches.  Plain prefix patterns still work. -/
theorem robots_dollar_anchor_broken :
    isAllowed true [{ userAgent := "*", allow := [], disallow := ["/private$"] }]
      "mnemo-crawler" "https://x.com/private" = true ∧
    pathMatches "/private" "/private$" = false ∧
    pathMatches "/private$x" "/private$" = true ∧
    pathMatches "/private" "/private" = true ∧
    isAllowed true [{ userAgent := "*", allow := [], disallow := ["/private"] }]
      "mnemo-crawler" "https://x.com/private" = false :=
  ⟨by decide, by decide, by decide, by decide, by decide⟩

/-- C7 (code_bug evaluation): `normalizeUrl` is not idempotent — the
trailing-slash step removes only one slash per application, so
`https://x.com/a//` normalizes to `https://x.com/a/`, which normalizes again
to `https://x.com/a`. -/
theorem normalizeUrl_double_slash_not_idempotent :
    normalizeUrl "https://x.com/a//" = "https://x.com/a/" ∧
    normalizeUrl (normalizeUrl "https://x.com/a//") = "https://x.com/a" ∧
    normalizeUrl (normalizeUrl "https://x.com/a//") ≠ normalizeUrl "https://x.com/a//" :=
  ⟨by decide, by decide, by decide⟩

/-- C8 counterexample: `utm_id` begins with `utm_` yet survives
normalization — the code removes a fixed five-element `utm_` list, not every
`utm_*` parameter. -/
theorem normalizeUrl_keeps_utm_id :
    listStartsWith "utm_id".data "utm_".data = true ∧
    normalizeUrl "https://x.com/p?utm_id=a&id=1" = "https://x.com/p?utm_id=a&id=1" :=
  ⟨by decide, by decide⟩

/-- C8 (amended): for every URL the parser accepts, the normalized URL
parses back to exactly the same components with the ten listed tracking
parameters filtered out of the query (all other parameters intact, in
order), the fragment emptied, and the trailing-slash step applied to the
path; on the spec's example, `utm_source` is stripped and `id` kept. -/
theorem normalizeUrl_normal_form :
    (∀ (s : String) (u : Url), parseUrl s = some u →
        parseUrl (normalizeUrl s) = some
          { u with
              query := u.query.filter (fun p => !(trackingParamNames.contains p.1)),
              fragment := [],
              path := normTrailing u.path }) ∧
    normalizeUrl "https://x.com/p?utm_source=a&id=1" = "https://x.com/p?id=1" := by
  refine ⟨?_, by decide⟩
  intro s u h
  have hn : normalizeUrl s = href
      { u with
          query := u.query.filter (fun p => !(trackingParamNames.contains p.1)),
          fragment := [],
          path := normTrailing u.path } := by
    unfold normalizeUrl
    rw [h]
  rw [hn]
  exact parse_href _ (urlWF_normalize (parse_wf h)) rfl

/-- C8 witness: the normal-form theorem applied to the spec's example URL. -/
theorem normalizeUrl_normal_form_witness :
    parseUrl "https://x.com/p?utm_source=a&id=1" = some uExample ∧
    parseUrl (normalizeUrl "https://x.com/p?utm_source=a&id=1") = some
      { uExample with
          query := uExample.query.filter (fun p => !(trackingParamNames.contains p.1)),
          fragment := [],
          path := normTrailing uExample.path } :=
  ⟨by decide,
    normalizeUrl_normal_form.1 "https://x.com/p?utm_source=a&id=1" uExample (by decide)⟩

/-- C2 counterexample: seeding performs no duplicate check — the same seed
URL supplied twice is enqueued twice, so a URL can be enqueued more than once
per crawl. -/
theorem seedState_duplicate_queue_entries :
    ((seedState cfgDupSeeds).queue.map (fun q => q.url)) =
      ["https://a.com/x", "https://a.com/x"] ∧
    ¬ ((seedState cfgDupSeeds).queue.map (fun q => q.url)).Nodup :=
  ⟨by decide, by decide⟩

/-- C2 (amended): after any crawl — every environment, configuration and fuel
bound — no URL appears more than once in the accepted-page list, and no URL
appears more than once in the error list at all (hence never twice for the
same reason): the visited-set check before any processing makes each URL
contribute at most one accepted page or error entry. -/
theorem crawl_dedup_invariant :
    ∀ (env : CrawlEnv) (cfg : CrawlConfig) (fuel : Nat),
      ((crawl env cfg fuel).files.map (fun f => f.path)).Nodup ∧
      (((crawl env cfg fuel).metadata.errors.getD []).map (fun e => e.url)).Nodup := by
  intro env cfg fuel
  have hseed : CrawlInv (seedState cfg) := by
    refine ⟨?_, ?_, ?_, ?_⟩ <;> simp [seedState]
  obtain ⟨h1, h2, h3, h4⟩ := crawlLoop_inv env cfg fuel (seedState cfg) hseed
  unfold crawl buildResult
  constructor
  · simp only [List.map_map]
    exact h1
  · split
    · simpa using h2
    · simp

/-- C9: `scoreLink` is always in `[0, 100]`; a documentation path outscores a
plain page, which outscores a login page (90 > 75 > 45 from the given
source/candidate pairs); and any unparseable candidate scores exactly 10. -/
theorem scoreLink_spec :
    (∀ link sourceUrl : String,
        0 ≤ scoreLink link sourceUrl ∧ scoreLink link sourceUrl ≤ 100) ∧
    scoreLink "https://a.com/about" "https://a.com/" <
      scoreLink "https://a.com/docs/x" "https://a.com/" ∧
    scoreLink "https://a.com/login" "https://a.com/" <
      scoreLink "https://a.com/about" "https://a.com/" ∧
    (∀ link sourceUrl : String,
        (parseUrl link).isNone → scoreLink link sourceUrl = 10) := by
  refine ⟨?_, by decide, by decide, ?_⟩
  · intro link sourceUrl
    unfold scoreLink
    omega
  · intro link sourceUrl h
    rw [Option.isNone_iff_eq_none] at h
    unfold scoreLink scoreRaw
    rw [h]
    cases parseUrl sourceUrl <;> simp

/-- C9 witness: the bounds and the invalid-URL case at concrete inputs. -/
theorem scoreLink_spec_witness :
    (0 ≤ scoreLink "https://a.com/docs/x" "https://a.com/" ∧
      scoreLink "https://a.com/docs/x" "https://a.com/" ≤ 100) ∧
    scoreLink "nota url" "https://a.com/" = 10 :=
  ⟨scoreLink_spec.1 "https://a.com/docs/x" "https://a.com/",
    scoreLink_spec.2.2.2 "nota url" "https://a.com/" (by decide)⟩

/-- C10: the combined source's token total and file count are the arithmetic
sums of the inputs; combining 100-token and 250-token sources yields 350
tokens and 3 files. -/
theorem combineLoadedSources_sums :
    (∀ (sources : List LoadedSource) (names : List String),
        (combineLoadedSources sources names).totalTokens =
          (sources.map (fun s => s.totalTokens)).sum ∧
        (combineLoadedSources sources names).fileCount =
          (sources.map (fun s => s.fileCount)).sum) ∧
    (combineLoadedSources [sampleSourceA, sampleSourceB] ["a", "b"]).totalTokens = 350 ∧
    (combineLoadedSources [sampleSourceA, sampleSourceB] ["a", "b"]).fileCount = 3 := by
  refine ⟨?_, by decide, by decide⟩
  intro sources names
  unfold combineLoadedSources
  exact ⟨by simpa using foldl_add_map (fun s => s.totalTokens) sources 0,
    by simpa using foldl_add_map (fun s => s.fileCount) sources 0⟩

end Mnemo
